import Mathlib

/-!
Verification of the tearsheet portfolio-analytics pipeline.

This file gives a shallow embedding of the numerical core of the
repository and proves (or refutes) the frozen claims about it.

Embedding conventions:
* pandas DataFrames become explicit column-name lists plus per-row cell
  lists; a missing value (NaN from the outer join) is `none`.
* Python floats are modelled as exact rationals `ℚ`; the two quantities
  whose source computation involves a square root (volatility and the
  Sharpe ratio) live in `ℝ` via `Real.sqrt`.
* Raised exceptions become `Except PipelineError`; the constructor
  records the exception class raised by the source.
* Weight strings are modelled post-parse: the embedding of
  `validate_weights` receives the rational values the source obtains
  from `float(w.strip())`; the blank-entry filter is the identity on
  such inputs, and a parse failure is outside the claims considered.
-/

/-- Exception classes of `src/backend/src/utils/exceptions.py` and
`src/src/utils/exceptions.py` that the embedded pipeline can raise. -/
inductive PipelineError where
  | validationError (msg : String) : PipelineError
  | dataFetchError (msg : String) : PipelineError
  | analysisError (msg : String) : PipelineError
  | portfolioError (msg : String) : PipelineError
deriving DecidableEq, Repr

/-- `MIN_WEIGHT` from `src/src/utils/constants.py`. -/
def MIN_WEIGHT : ℚ := 0

/-- `MAX_WEIGHT` from `src/src/utils/constants.py`. -/
def MAX_WEIGHT : ℚ := 1

/-- `WEIGHT_TOLERANCE` from `src/src/utils/constants.py` (`0.0001`). -/
def WEIGHT_TOLERANCE : ℚ := 1 / 10000

/-- Embedding of `ValidationService.validate_weights`
(`src/src/services/validation_service.py`, lines 77-123).  The input is
the list of parsed weight values (see module comment) and the expected
count.  Mirroring the source: empty input errors, a count mismatch
errors, any weight outside `[MIN_WEIGHT, MAX_WEIGHT]` errors, a sum
farther than `WEIGHT_TOLERANCE` from 1 errors, and otherwise the
weights are returned divided by their raw sum. -/
def validate_weights (weights : List ℚ) (num_symbols : ℕ) :
    Except PipelineError (List ℚ) :=
  if weights = [] then .error (.validationError "No weights provided")
  else
    if weights.length ≠ num_symbols then
      .error (.validationError "Number of weights must match number of symbols")
    else if ∃ w ∈ weights, w < MIN_WEIGHT ∨ MAX_WEIGHT < w then
      .error (.validationError "INVALID_WEIGHT")
    else if WEIGHT_TOLERANCE < |weights.sum - 1| then
      .error (.validationError "WEIGHTS_NOT_SUM_ONE")
    else
      .ok (weights.map (fun w => w / weights.sum))

/-- A raw combined price table as produced by
`DataFetcher.fetch_historical_data`: named columns (one of which is
`"time"`) and rows of cells, a cell being `none` where the outer join
left a gap.  Cell values (including the time column) are rationals. -/
structure CombinedFrame where
  cols : List String
  rows : List (List (Option ℚ))
deriving DecidableEq, Repr

/-- A price table whose `time` column has already been promoted to the
index, as `calculate_portfolio_returns` arranges on entry (lines
117-123 of `src/backend/src/core/portfolio_analyzer.py`): each row is a
timestamp paired with the cells of the remaining columns. -/
structure PriceFrame where
  cols : List String
  rows : List (ℤ × List (Option ℚ))
deriving DecidableEq, Repr

/-- Select the cell of the first column named `name`, as pandas column
indexing does; `none` both when the column is absent and when the
stored cell is itself a gap. -/
def colVal : List String → List (Option ℚ) → String → Option ℚ
  | c :: cs, v :: vs, name => if c = name then v else colVal cs vs name
  | _, _, _ => none

/-- Select the value of the first column named `name` in a fully
populated row; `none` exactly when the column is absent. -/
def colValQ : List String → List ℚ → String → Option ℚ
  | c :: cs, v :: vs, name => if c = name then some v else colValQ cs vs name
  | _, _, _ => none

/-- Embedding of `DataFetcher.get_close_prices`
(`src/backend/src/core/data_fetcher.py`, lines 110-135): build the list
`["time"] + [f"{symbol}_close" ...]`, raise `DataFetchError` if any of
those columns is absent from the combined table, and otherwise return
the projection of the table onto exactly those columns, in that order,
with the rows untouched (the source performs no sort and no type
coercion here). -/
def get_close_prices (combined_data : CombinedFrame) (symbols : List String) :
    Except PipelineError CombinedFrame :=
  let close_cols := "time" :: symbols.map (fun s => s ++ "_close")
  let missing_cols := close_cols.filter (fun c => !(combined_data.cols.contains c))
  if missing_cols = [] then
    .ok ⟨close_cols,
      combined_data.rows.map (fun row => close_cols.map (fun c => colVal combined_data.cols row c))⟩
  else
    .error (.dataFetchError "Missing columns in combined data")

/-- Insert a row into a time-sorted row list, keeping it sorted. -/
def insertRow (r : ℤ × List (Option ℚ)) :
    List (ℤ × List (Option ℚ)) → List (ℤ × List (Option ℚ))
  | [] => [r]
  | x :: xs => if r.1 < x.1 then r :: x :: xs else x :: insertRow r xs

/-- Embedding of `price_data.sort_index()` (line 126 of
`portfolio_analyzer.py`): sort the rows ascending by timestamp. -/
def sortByTime : List (ℤ × List (Option ℚ)) → List (ℤ × List (Option ℚ))
  | [] => []
  | r :: rs => insertRow r (sortByTime rs)

/-- One forward-fill step of `pct_change`'s `fill_method='pad'`
pre-pass: position-wise, a defined cell stands, and a gap is replaced
by the forward-filled value of the previous row (itself `none` while
the column has had no observation yet). -/
def ffillRow (prevf cur : List (Option ℚ)) : List (Option ℚ) :=
  List.zipWith
    (fun p c =>
      match c with
      | some b => some b
      | none => p)
    prevf cur

/-- One row of the divide-by-shift step of `pct_change`: position-wise,
the simple return `cur / prev - 1` of the forward-filled rows,
undefined whenever either forward-filled price is still undefined
(i.e. the column has no observation up to that point). -/
def pctRow (prevf curf : List (Option ℚ)) : List (Option ℚ) :=
  List.zipWith
    (fun p c =>
      match p, c with
      | some a, some b => some (b / a - 1)
      | _, _ => none)
    prevf curf

/-- Tail of `pct_change`: each row is forward-filled against the
running forward-filled state `prevf`, then its returns are taken
against that state. -/
def pctChangeFrom (prevf : List (Option ℚ)) :
    List (ℤ × List (Option ℚ)) → List (ℤ × List (Option ℚ))
  | [] => []
  | r :: rest =>
    (r.1, pctRow prevf (ffillRow prevf r.2)) ::
      pctChangeFrom (ffillRow prevf r.2) rest

/-- Embedding of `price_data.pct_change()` (line 129 of
`portfolio_analyzer.py`) under the `fill_method='pad'` default of the
pandas 2.x runtime this repository uses: the table is forward-filled
column-wise and the simple returns are taken between consecutive
forward-filled rows.  The first row has every return undefined (no
predecessor); forward-filling the first row is the identity, so the
running state starts from its raw cells. -/
def pct_change : List (ℤ × List (Option ℚ)) → List (ℤ × List (Option ℚ))
  | [] => []
  | r :: rest => (r.1, r.2.map (fun _ => none)) :: pctChangeFrom r.2 rest

/-- All cells of a row, provided none is a gap. -/
def seqCells : List (Option ℚ) → Option (List ℚ)
  | [] => some []
  | none :: _ => none
  | some q :: rest => (seqCells rest).map (fun vs => q :: vs)

/-- Embedding of `.dropna()` (line 129 of `portfolio_analyzer.py`):
keep exactly the rows in which every column's value is defined. -/
def dropna (rows : List (ℤ × List (Option ℚ))) : List (ℤ × List ℚ) :=
  rows.filterMap (fun r => (seqCells r.2).map (fun vs => (r.1, vs)))

/-- The weighted-sum loop of `calculate_portfolio_returns` (lines
137-147 of `portfolio_analyzer.py`): starting from `0.0`, add
`returns[f"{symbol}_close"] * weight` for each symbol-weight pair whose
column exists; a missing column contributes nothing (the source logs a
warning and moves on). -/
def portfolioRow (cols symbols : List String) (weights : List ℚ)
    (cells : List ℚ) : ℚ :=
  (List.zip symbols weights).foldl
    (fun acc sw =>
      match colValQ cols cells (sw.1 ++ "_close") with
      | some v => acc + v * sw.2
      | none => acc)
    0

/-- The portfolio-return series built by `calculate_portfolio_returns`
once the column check has passed: sort by time, take per-column simple
returns of the forward-filled table, drop every row in which any
return is still undefined after padding, then form the weighted sum
row by row (the timestamps are kept unchanged). -/
def portfolio_returns_list (f : PriceFrame) (symbols : List String)
    (weights : List ℚ) : List (ℤ × ℚ) :=
  (dropna (pct_change (sortByTime f.rows))).map
    (fun r => (r.1, portfolioRow f.cols symbols weights r.2))

/-- Embedding of `PortfolioAnalyzer.calculate_portfolio_returns`
(`src/backend/src/core/portfolio_analyzer.py`, lines 97-159).  The
source computes the per-symbol returns first and only then checks for
the expected `{symbol}_close` columns, raising `AnalysisError` when any
is missing; in this pure embedding the two steps commute, and the check
is written as the guard.  `pct_change` preserves the column list, so
the membership test against `returns.columns` is the test against
`f.cols`. -/
def calculate_portfolio_returns (f : PriceFrame) (symbols : List String)
    (weights : List ℚ) : Except PipelineError (List (ℤ × ℚ)) :=
  let expected_cols := symbols.map (fun s => s ++ "_close")
  let missing_cols := expected_cols.filter (fun c => !(f.cols.contains c))
  if missing_cols = [] then
    .ok (portfolio_returns_list f symbols weights)
  else
    .error (.analysisError "Missing price columns")

/-- Does every symbol in the list have a defined value in this row of
cells (looked up through its `{symbol}_close` column)? -/
def symbolsDefinedB (cols symbols : List String)
    (cells : List (Option ℚ)) : Bool :=
  symbols.all (fun s => (colVal cols cells (s ++ "_close")).isSome)

/-- Claim-side characterisation of the retained return index under the
pad default: walking the (sorted) rows while carrying the
forward-filled state `prevf`, a timestamp is kept exactly when every
symbol already has a forward-filled price at the preceding row — that
is, an observation at some earlier timestamp.  A row in which a
symbol's price is missing but was observed earlier is kept (the symbol
contributes a forward-filled `0` return there); only rows preceding a
symbol's first observation are dropped. -/
def keptTimesFrom (cols symbols : List String) (prevf : List (Option ℚ)) :
    List (ℤ × List (Option ℚ)) → List ℤ
  | [] => []
  | r :: rest =>
    if symbolsDefinedB cols symbols prevf then
      r.1 :: keptTimesFrom cols symbols (ffillRow prevf r.2) rest
    else
      keptTimesFrom cols symbols (ffillRow prevf r.2) rest

/-- Claim-side retained index of a sorted price table under the pad
default: the first row is never kept (no predecessor), and a later row
is kept exactly when every symbol has an observation at or before the
preceding row. -/
def keptTimes (cols symbols : List String) :
    List (ℤ × List (Option ℚ)) → List ℤ
  | [] => []
  | r :: rest => keptTimesFrom cols symbols r.2 rest

/-- Minimum of the timestamps of a series (`index.min()`); `0` on the
empty series, which the callers below never reach. -/
def minKey (xs : List (ℤ × ℚ)) : ℤ :=
  match xs with
  | [] => 0
  | p :: ps => (ps.map Prod.fst).foldl min p.1

/-- Maximum of the timestamps of a series (`index.max()`); `0` on the
empty series, which the callers below never reach. -/
def maxKey (xs : List (ℤ × ℚ)) : ℤ :=
  match xs with
  | [] => 0
  | p :: ps => (ps.map Prod.fst).foldl max p.1

/-- `portfolio_returns.mean()` (line 183 of `portfolio_analyzer.py`). -/
def seriesMean (vals : List ℚ) : ℚ :=
  vals.sum / (vals.length : ℚ)

/-- `(1 + portfolio_returns).prod() - 1` (line 181). -/
def total_return (vals : List ℚ) : ℚ :=
  (vals.map (fun r => 1 + r)).prod - 1

/-- `(1 + portfolio_returns.mean()) ** 252 - 1` (lines 182-184). -/
def annualized_return (vals : List ℚ) : ℚ :=
  (1 + seriesMean vals) ^ (252 : ℕ) - 1

/-- The sample variance behind `portfolio_returns.std()` (pandas
default `ddof=1`): squared deviations from the mean divided by `n - 1`.
For `n ≤ 1` the rational convention `q / 0 = 0` stands in for the NaN
the source produces; either way the `volatility > 0` test below is
false, so the observable Sharpe behaviour matches. -/
def sample_variance (vals : List ℚ) : ℚ :=
  (vals.map (fun x => (x - seriesMean vals) ^ 2)).sum
    / ((vals.length - 1 : ℕ) : ℚ)

/-- `portfolio_returns.std() * np.sqrt(252)` (line 185). -/
noncomputable def volatility (vals : List ℚ) : ℝ :=
  Real.sqrt (sample_variance vals) * Real.sqrt 252

/-- `excess_return / volatility if volatility > 0 else 0`
(lines 188-189), with `excess_return = annualized_return - risk_free_rate`. -/
noncomputable def sharpe_ratio (vals : List ℚ) (risk_free_rate : ℚ) : ℝ :=
  if 0 < volatility vals then
    ((annualized_return vals : ℝ) - (risk_free_rate : ℝ)) / volatility vals
  else 0

/-- Running cumulative product of `1 + r`, starting from `acc`. -/
def cumprodFrom (acc : ℚ) : List ℚ → List ℚ
  | [] => []
  | r :: rest => (acc * (1 + r)) :: cumprodFrom (acc * (1 + r)) rest

/-- `(1 + portfolio_returns).cumprod()` (line 192). -/
def cumulative_returns (vals : List ℚ) : List ℚ :=
  cumprodFrom 1 vals

/-- Running maxima continuing from a previous maximum `m`. -/
def rollingMaxFrom (m : ℚ) : List ℚ → List ℚ
  | [] => []
  | x :: xs => (max m x) :: rollingMaxFrom (max m x) xs

/-- `cumulative_returns.expanding().max()` (line 193). -/
def rolling_max : List ℚ → List ℚ
  | [] => []
  | x :: xs => x :: rollingMaxFrom x xs

/-- `(cumulative_returns - rolling_max) / rolling_max` (line 194). -/
def drawdowns (vals : List ℚ) : List ℚ :=
  List.zipWith (fun c m => (c - m) / m)
    (cumulative_returns vals)
    (rolling_max (cumulative_returns vals))

/-- `drawdowns.min()` (line 195); `0` on the empty series, which the
caller never reaches. -/
def max_drawdown (vals : List ℚ) : ℚ :=
  match drawdowns vals with
  | [] => 0
  | d :: ds => ds.foldl min d

/-- `win_rate = positive_periods / total_periods if total_periods > 0
else 0` (lines 198-200). -/
def win_rate (vals : List ℚ) : ℚ :=
  if 0 < vals.length then
    ((vals.filter (fun v => decide (0 < v))).length : ℚ) / (vals.length : ℚ)
  else 0

/-- The fixed metrics record assembled by
`calculate_performance_metrics` (lines 202-212 of
`portfolio_analyzer.py`). -/
structure Metrics where
  total_return : ℚ
  annualized_return : ℚ
  volatility : ℝ
  sharpe_ratio : ℝ
  max_drawdown : ℚ
  win_rate : ℚ
  total_periods : ℕ
  start_date : ℤ
  end_date : ℤ

/-- The metrics record computed for a non-empty return series, field by
field as in lines 180-212 of `portfolio_analyzer.py`. -/
noncomputable def metricsFor (returns : List (ℤ × ℚ)) (risk_free_rate : ℚ) :
    Metrics :=
  { total_return := total_return (returns.map Prod.snd)
  , annualized_return := annualized_return (returns.map Prod.snd)
  , volatility := volatility (returns.map Prod.snd)
  , sharpe_ratio := sharpe_ratio (returns.map Prod.snd) risk_free_rate
  , max_drawdown := max_drawdown (returns.map Prod.snd)
  , win_rate := win_rate (returns.map Prod.snd)
  , total_periods := returns.length
  , start_date := minKey returns
  , end_date := maxKey returns }

/-- Embedding of `PortfolioAnalyzer.calculate_performance_metrics`
(`src/backend/src/core/portfolio_analyzer.py`, lines 161-218): the
emptiness guard at lines 177-178 raises `AnalysisError` before any
statistic is computed, so no metrics record of any kind is produced for
an empty series; otherwise every metric is computed and returned. -/
noncomputable def calculate_performance_metrics (returns : List (ℤ × ℚ))
    (risk_free_rate : ℚ) : Except PipelineError Metrics :=
  match returns with
  | [] => .error (.analysisError "No returns data available for metrics calculation")
  | _ => .ok (metricsFor returns risk_free_rate)

/-- Is this outcome a raised `AnalysisError`? -/
def isAnalysisError {α : Type} : Except PipelineError α → Bool
  | .error (.analysisError _) => true
  | _ => false

/-- Is this outcome a raised `DataFetchError`? -/
def isDataFetchError {α : Type} : Except PipelineError α → Bool
  | .error (.dataFetchError _) => true
  | _ => false

/-- Compounded return of the calendar-month bucket `t`: the lambda
`(1 + x).prod() - 1` of line 187 of
`src/backend/src/services/visualization_service.py`, applied to the
entries of the series whose month index is `t`.  A month is encoded as
`12 * year + (month - 1)`; the day within the month is irrelevant to
the bucket product. -/
def monthlyCompound (xs : List (ℤ × ℚ)) (t : ℤ) : ℚ :=
  ((xs.filter (fun p => decide (p.1 = t))).map (fun p => 1 + p.2)).prod - 1

/-- One bucket per month from `lo` for `n` months, each holding its
compounded return. -/
def resampleRange (lo : ℤ) : ℕ → (ℤ → ℚ) → List (ℤ × ℚ)
  | 0, _ => []
  | n + 1, f => (lo, f lo) :: resampleRange (lo + 1) n f

/-- Embedding of `returns.resample("M").apply(lambda x: (1+x).prod()-1)`
(line 187 of `visualization_service.py`): one bucket for every calendar
month from the first to the last month observed in the series —
including months with no observations, whose empty product yields `0`. -/
def resample_monthly (xs : List (ℤ × ℚ)) : List (ℤ × ℚ) :=
  match xs with
  | [] => []
  | _ => resampleRange (minKey xs) ((maxKey xs - minKey xs + 1).toNat)
      (monthlyCompound xs)

/-- The (year, month) pivot grid of lines 190-196 of
`visualization_service.py`: the cell for `(year, month)` holds the
resampled bucket value when that month lies in the resampled range
(`groupby(year, month).first().unstack()` keeps the unique bucket) and
is a missing value otherwise. -/
def monthly_grid (xs : List (ℤ × ℚ)) (year month : ℤ) : Option ℚ :=
  (resample_monthly xs).lookup (12 * year + (month - 1))

theorem sum_map_div (l : List ℚ) (s : ℚ) :
    (l.map (fun w => w / s)).sum = l.sum / s := by
  induction l with
  | nil => simp
  | cons x xs ih => simp [ih, add_div]

theorem validate_weights_sum_pos (ws : List ℚ)
    (h2 : |ws.sum - 1| ≤ WEIGHT_TOLERANCE) : 0 < ws.sum := by
  have h := (abs_le.mp h2).1
  rw [WEIGHT_TOLERANCE] at h
  linarith

theorem validate_weights_ok_of (ws : List ℚ) (hne : ws ≠ [])
    (h1 : ∀ w ∈ ws, MIN_WEIGHT ≤ w ∧ w ≤ MAX_WEIGHT)
    (h2 : |ws.sum - 1| ≤ WEIGHT_TOLERANCE) :
    validate_weights ws ws.length = .ok (ws.map (fun w => w / ws.sum)) := by
  rw [validate_weights]
  rw [if_neg hne, if_neg (by simp), if_neg, if_neg (not_lt.mpr h2)]
  rintro ⟨x, hx, hlt⟩
  rcases hlt with hlt | hlt
  · exact absurd (h1 x hx).1 (not_le.mpr hlt)
  · exact absurd (h1 x hx).2 (not_le.mpr hlt)

/-- Claim C6: if every parsed raw weight lies in `[0, 1]` and the raw
sum is within `1e-4` of `1`, then `validate_weights` succeeds, returns
the raw weights divided by their raw sum, that output sums to exactly
`1` (the floating-point epsilon of the claim is exact equality in this
rational embedding), and running `validate_weights` again on the
normalized output returns it unchanged (fixed point). -/
theorem c6_weight_normalization_fixed_point (ws : List ℚ)
    (h1 : ∀ w ∈ ws, 0 ≤ w ∧ w ≤ 1)
    (h2 : |ws.sum - 1| ≤ 1 / 10000) :
    validate_weights ws ws.length = .ok (ws.map (fun w => w / ws.sum)) ∧
    (ws.map (fun w => w / ws.sum)).sum = 1 ∧
    validate_weights (ws.map (fun w => w / ws.sum)) ws.length =
      .ok (ws.map (fun w => w / ws.sum)) := by
  have h2' : |ws.sum - 1| ≤ WEIGHT_TOLERANCE := by rw [WEIGHT_TOLERANCE]; exact h2
  have hne : ws ≠ [] := by
    rintro rfl
    rw [List.sum_nil] at h2
    norm_num at h2
  have spos : 0 < ws.sum := validate_weights_sum_pos ws h2'
  have h1' : ∀ w ∈ ws, MIN_WEIGHT ≤ w ∧ w ≤ MAX_WEIGHT := by
    intro w hw
    exact ⟨by rw [MIN_WEIGHT]; exact (h1 w hw).1, by rw [MAX_WEIGHT]; exact (h1 w hw).2⟩
  have hsum1 : (ws.map (fun w => w / ws.sum)).sum = 1 := by
    rw [sum_map_div, div_self (ne_of_gt spos)]
  refine ⟨validate_weights_ok_of ws hne h1' h2', hsum1, ?_⟩
  have hne' : ws.map (fun w => w / ws.sum) ≠ [] := by
    intro h
    exact hne (List.map_eq_nil_iff.mp h)
  have hb' : ∀ w ∈ ws.map (fun w => w / ws.sum), MIN_WEIGHT ≤ w ∧ w ≤ MAX_WEIGHT := by
    intro w' hw'
    rcases List.mem_map.mp hw' with ⟨w, hw, rfl⟩
    constructor
    · rw [MIN_WEIGHT]
      exact div_nonneg (h1 w hw).1 spos.le
    · rw [MAX_WEIGHT]
      rw [div_le_one spos]
      exact List.single_le_sum (fun x hx => (h1 x hx).1) w hw
  have htol' : |(ws.map (fun w => w / ws.sum)).sum - 1| ≤ WEIGHT_TOLERANCE := by
    rw [hsum1]
    simp [WEIGHT_TOLERANCE]
  have hlen : (ws.map (fun w => w / ws.sum)).length = ws.length := by
    rw [List.length_map]
  have := validate_weights_ok_of (ws.map (fun w => w / ws.sum)) hne' hb' htol'
  rw [hlen] at this
  rw [this, hsum1]
  congr 1
  rw [List.map_map]
  have : ((fun w => w / 1) ∘ fun w => w / ws.sum) = fun w => w / ws.sum := by
    funext w
    simp
  rw [this]

/-- Witness for C6 at the concrete raw weights `[1/2, 1/2]`. -/
theorem c6_weight_normalization_fixed_point_witness :
    validate_weights [1/2, 1/2] ([1/2, 1/2] : List ℚ).length =
      .ok (([1/2, 1/2] : List ℚ).map (fun w => w / ([1/2, 1/2] : List ℚ).sum)) ∧
    (([1/2, 1/2] : List ℚ).map (fun w => w / ([1/2, 1/2] : List ℚ).sum)).sum = 1 ∧
    validate_weights (([1/2, 1/2] : List ℚ).map (fun w => w / ([1/2, 1/2] : List ℚ).sum))
        ([1/2, 1/2] : List ℚ).length =
      .ok (([1/2, 1/2] : List ℚ).map (fun w => w / ([1/2, 1/2] : List ℚ).sum)) :=
  c6_weight_normalization_fixed_point [1/2, 1/2] (by norm_num) (by norm_num)

/-- Claim C10: every successful run of `validate_weights` returns
exactly `num_symbols` weights, each lying in `[0, 1]`: the raw weights
were validated to be non-negative and none exceeds the raw sum, so
dividing by that (positive) sum keeps every entry in the unit
interval. -/
theorem c10_normalized_weights_in_unit_interval (ws : List ℚ)
    (num_symbols : ℕ) (res : List ℚ)
    (h : validate_weights ws num_symbols = .ok res) :
    res.length = num_symbols ∧ ∀ x ∈ res, 0 ≤ x ∧ x ≤ 1 := by
  rw [validate_weights] at h
  by_cases hni : ws = []
  · rw [if_pos hni] at h
    exact absurd h (by simp)
  rw [if_neg hni] at h
  by_cases hlen : ws.length ≠ num_symbols
  · rw [if_pos hlen] at h
    exact absurd h (by simp)
  rw [if_neg hlen] at h
  by_cases hbad : ∃ x ∈ ws, x < MIN_WEIGHT ∨ MAX_WEIGHT < x
  · rw [if_pos hbad] at h
    exact absurd h (by simp)
  rw [if_neg hbad] at h
  by_cases htol : WEIGHT_TOLERANCE < |ws.sum - 1|
  · rw [if_pos htol] at h
    exact absurd h (by simp)
  rw [if_neg htol] at h
  have hres : res = ws.map (fun x => x / ws.sum) := by
    have := Except.ok.inj h
    exact this.symm
  have hnn : ∀ x ∈ ws, 0 ≤ x := by
    intro x hx
    by_contra hneg
    exact hbad ⟨x, hx, Or.inl (by rw [MIN_WEIGHT]; exact not_le.mp hneg)⟩
  have spos : 0 < ws.sum :=
    validate_weights_sum_pos ws (not_lt.mp htol)
  constructor
  · rw [hres, List.length_map]
    exact not_not.mp hlen
  · intro x hx
    rw [hres] at hx
    rcases List.mem_map.mp hx with ⟨y, hy, rfl⟩
    refine ⟨div_nonneg (hnn y hy) spos.le, ?_⟩
    rw [div_le_one spos]
    exact List.single_le_sum hnn y hy

/-- Witness for C10 at the concrete call
`validate_weights [1/2, 1/2] 2 = .ok [1/2, 1/2]`. -/
theorem c10_normalized_weights_in_unit_interval_witness :
    ([1/2, 1/2] : List ℚ).length = 2 ∧ ∀ x ∈ ([1/2, 1/2] : List ℚ), 0 ≤ x ∧ x ≤ 1 :=
  c10_normalized_weights_in_unit_interval [1/2, 1/2] 2 [1/2, 1/2] (by
    rw [validate_weights]
    norm_num [MIN_WEIGHT, MAX_WEIGHT, WEIGHT_TOLERANCE]
    intro hcontra
    exact absurd hcontra (by simp))

/-- Claim C4: on the empty return series,
`calculate_performance_metrics` raises `AnalysisError` from its opening
guard, before any statistic is touched, for every risk-free rate; no
metrics record, partial or otherwise, is produced. -/
theorem c4_empty_series_analysis_error (risk_free_rate : ℚ) :
    calculate_performance_metrics [] risk_free_rate =
      .error (.analysisError "No returns data available for metrics calculation") :=
  rfl

theorem filter_not_contains_ne_nil {l cols : List String} {a : String}
    (ha : a ∈ l) (hno : a ∉ cols) :
    l.filter (fun c => !(cols.contains c)) ≠ [] := by
  intro h
  have : a ∈ l.filter (fun c => !(cols.contains c)) := by
    rw [List.mem_filter]
    exact ⟨ha, by simpa using hno⟩
  rw [h] at this
  exact absurd this (List.not_mem_nil a)

/-- Claim C3: whenever some listed symbol `s` has no `s_close` column,
`calculate_portfolio_returns` raises `AnalysisError` and
`get_close_prices` raises `DataFetchError`; neither ever returns a
result computed over the remaining symbols. -/
theorem c3_missing_column_errors (f : PriceFrame) (df : CombinedFrame)
    (symbols : List String) (weights : List ℚ) (s : String)
    (hs : s ∈ symbols)
    (hf : (s ++ "_close") ∉ f.cols)
    (hdf : (s ++ "_close") ∉ df.cols) :
    isAnalysisError (calculate_portfolio_returns f symbols weights) = true ∧
    isDataFetchError (get_close_prices df symbols) = true := by
  constructor
  · rw [calculate_portfolio_returns]
    rw [if_neg (filter_not_contains_ne_nil (List.mem_map_of_mem _ hs) hf)]
    rfl
  · rw [get_close_prices]
    have hmem : (s ++ "_close") ∈ "time" :: symbols.map (fun x => x ++ "_close") :=
      List.mem_cons_of_mem _ (List.mem_map_of_mem _ hs)
    rw [if_neg (filter_not_contains_ne_nil hmem hdf)]
    rfl

/-- Witness for C3: a table whose columns are only `AAA_close` while
the symbol list also requests `BBB`. -/
theorem c3_missing_column_errors_witness :
    isAnalysisError
      (calculate_portfolio_returns ⟨["AAA_close"], []⟩ ["AAA", "BBB"] [1/2, 1/2]) = true ∧
    isDataFetchError
      (get_close_prices ⟨["time", "AAA_close"], []⟩ ["AAA", "BBB"]) = true :=
  c3_missing_column_errors ⟨["AAA_close"], []⟩ ⟨["time", "AAA_close"], []⟩
    ["AAA", "BBB"] [1/2, 1/2] "BBB" (by simp) (by simp) (by simp)

/-- Claim C9, amended: when every requested column is present,
`get_close_prices` returns exactly the `time` column followed by one
`{symbol}_close` column per symbol in the given order, with each input
row projected onto those columns in its original position — pure
projection, no join; the source performs no sorting by `time` and no
datetime coercion here (those happen upstream in `_merge_symbol_data`
and downstream in `calculate_portfolio_returns`). -/
theorem c9_projection_only (df : CombinedFrame) (symbols : List String)
    (hall : ∀ c ∈ "time" :: symbols.map (fun s => s ++ "_close"), c ∈ df.cols) :
    get_close_prices df symbols =
      .ok ⟨"time" :: symbols.map (fun s => s ++ "_close"),
        df.rows.map (fun row =>
          ("time" :: symbols.map (fun s => s ++ "_close")).map
            (fun c => colVal df.cols row c))⟩ := by
  rw [get_close_prices]
  rw [if_pos]
  rw [List.filter_eq_nil_iff]
  intro c hc
  simpa using hall c hc

/-- Witness for C9 at a two-symbol projection. -/
theorem c9_projection_only_witness :
    get_close_prices ⟨["time", "AAA_close", "AAA_volume"], [[some 1, some 5, some 9]]⟩ ["AAA"] =
      .ok ⟨"time" :: (["AAA"].map (fun s => s ++ "_close")),
        [[some 1, some 5, some 9]].map (fun row =>
          ("time" :: (["AAA"].map (fun s => s ++ "_close"))).map
            (fun c => colVal ["time", "AAA_close", "AAA_volume"] row c))⟩ :=
  c9_projection_only ⟨["time", "AAA_close", "AAA_volume"], [[some 1, some 5, some 9]]⟩
    ["AAA"] (by simp)

/-- Counterexample to C9 as stated: with rows arriving out of time
order (`time` values 2 then 1), `get_close_prices` returns them in that
same unsorted order — it does not sort ascending by `time` and does not
coerce the `time` values. -/
theorem c9_counterexample_no_sort :
    get_close_prices ⟨["time", "AAA_close"], [[some 2, some 5], [some 1, some 6]]⟩ ["AAA"] =
      .ok ⟨["time", "AAA_close"], [[some 2, some 5], [some 1, some 6]]⟩ ∧
    ¬ ((2 : ℚ) ≤ 1) := by
  constructor
  · rfl
  · norm_num

theorem lookup_resampleRange (f : ℤ → ℚ) :
    ∀ (n : ℕ) (lo t : ℤ),
      (resampleRange lo n f).lookup t =
        if lo ≤ t ∧ t < lo + (n : ℤ) then some (f t) else none := by
  intro n
  induction n with
  | zero =>
    intro lo t
    rw [resampleRange]
    rw [if_neg (by omega)]
    rfl
  | succ k ih =>
    intro lo t
    rw [resampleRange]
    by_cases hlt : lo = t
    · subst hlt
      rw [if_pos (by omega)]
      simp [List.lookup]
    · have hstep : List.lookup t ((lo, f lo) :: resampleRange (lo + 1) k f) =
          List.lookup t (resampleRange (lo + 1) k f) := by
        have hbe : (t == lo) = false := beq_eq_false_iff_ne.mpr (Ne.symm hlt)
        simp [List.lookup, hbe]
      rw [hstep, ih (lo + 1) t]
      by_cases hin : lo + 1 ≤ t ∧ t < lo + 1 + (k : ℤ)
      · rw [if_pos hin, if_pos (by omega)]
      · rw [if_neg hin, if_neg (by omega)]

/-- Claim C8, amended: the monthly aggregation groups entries into
calendar-month buckets and compounds each bucket as `Π(1+r) - 1`; the
(year, month) grid holds that bucket value for every month between the
first and the last observed month — including months in that span with
no observations, which receive `0` (the compounded empty bucket), not a
missing value — while (year, month) cells outside the observed span are
missing. -/
theorem c8_monthly_grid_span (xs : List (ℤ × ℚ)) (year month : ℤ)
    (hxs : xs ≠ []) :
    (minKey xs ≤ 12 * year + (month - 1) ∧ 12 * year + (month - 1) ≤ maxKey xs →
      monthly_grid xs year month =
        some (monthlyCompound xs (12 * year + (month - 1)))) ∧
    (12 * year + (month - 1) < minKey xs ∨ maxKey xs < 12 * year + (month - 1) →
      monthly_grid xs year month = none) ∧
    (xs.filter (fun p => decide (p.1 = 12 * year + (month - 1))) = [] →
      monthlyCompound xs (12 * year + (month - 1)) = 0) := by
  have hres : resample_monthly xs =
      resampleRange (minKey xs) ((maxKey xs - minKey xs + 1).toNat)
        (monthlyCompound xs) := by
    cases xs with
    | nil => exact absurd rfl hxs
    | cons p ps => rfl
  have hlook := lookup_resampleRange (monthlyCompound xs)
    ((maxKey xs - minKey xs + 1).toNat) (minKey xs) (12 * year + (month - 1))
  refine ⟨?_, ?_, ?_⟩
  · intro hin
    rw [monthly_grid, hres, hlook, if_pos]
    have hnn : (0 : ℤ) ≤ maxKey xs - minKey xs + 1 := by omega
    rw [Int.toNat_of_nonneg hnn]
    omega
  · intro hout
    rw [monthly_grid, hres, hlook, if_neg]
    rintro ⟨hc1, hc2⟩
    by_cases hnn : (0 : ℤ) ≤ maxKey xs - minKey xs + 1
    · rw [Int.toNat_of_nonneg hnn] at hc2
      omega
    · rw [Int.toNat_of_nonpos (by omega)] at hc2
      omega
  · intro hfil
    rw [monthlyCompound, hfil]
    simp

/-- Witness for C8 at a one-entry series: the single observed month is
inside the span and carries its compounded bucket value. -/
theorem c8_monthly_grid_span_witness :
    monthly_grid [((0 : ℤ), (1 : ℚ)/10)] 0 1 =
      some (monthlyCompound [((0 : ℤ), (1 : ℚ)/10)] (12 * 0 + (1 - 1))) :=
  (c8_monthly_grid_span [((0 : ℤ), (1 : ℚ)/10)] 0 1 (by simp)).1
    (by norm_num [minKey, maxKey])

/-- Counterexample to C8 as stated: with observations only in month 0
and month 2, the month-1 cell of the grid is `some 0` (the compounded
empty resample bucket), not a missing value as the claim requires. -/
theorem c8_counterexample_gap_month_is_zero :
    monthly_grid [((0 : ℤ), (0 : ℚ)), (2, 1/10)] 0 2 = some 0 ∧
    monthly_grid [((0 : ℤ), (0 : ℚ)), (2, 1/10)] 0 2 ≠ none := by
  have hval : monthly_grid [((0 : ℤ), (0 : ℚ)), (2, 1/10)] 0 2 = some 0 := by
    norm_num [monthly_grid, resample_monthly, minKey, maxKey, resampleRange,
      monthlyCompound, List.lookup]
    split <;> rfl
  refine ⟨hval, ?_⟩
  rw [hval]
  exact fun h => Option.noConfusion h

theorem foldl_min_le_init (l : List ℚ) : ∀ a : ℚ, l.foldl min a ≤ a := by
  induction l with
  | nil => intro a; exact le_refl a
  | cons x xs ih =>
    intro a
    calc (x :: xs).foldl min a = xs.foldl min (min a x) := rfl
    _ ≤ min a x := ih (min a x)
    _ ≤ a := min_le_left a x

theorem foldl_min_le_mem (l : List ℚ) : ∀ (a b : ℚ), b ∈ l → l.foldl min a ≤ b := by
  induction l with
  | nil => intro a b hb; exact absurd hb (List.not_mem_nil b)
  | cons x xs ih =>
    intro a b hb
    rcases List.mem_cons.mp hb with rfl | hb
    · calc (b :: xs).foldl min a = xs.foldl min (min a b) := rfl
      _ ≤ min a b := foldl_min_le_init xs (min a b)
      _ ≤ b := min_le_right a b
    · exact ih (min a x) b hb

theorem foldl_min_mem (l : List ℚ) : ∀ a : ℚ, l.foldl min a = a ∨ l.foldl min a ∈ l := by
  induction l with
  | nil => intro a; exact Or.inl rfl
  | cons x xs ih =>
    intro a
    rcases ih (min a x) with h | h
    · rcases min_cases a x with ⟨hm, _⟩ | ⟨hm, _⟩
      · exact Or.inl (by rw [List.foldl_cons, h, hm])
      · exact Or.inr (by rw [List.foldl_cons, h, hm]; exact List.mem_cons_self x xs)
    · exact Or.inr (List.mem_cons_of_mem x h)

theorem zipWith_self_eq_map (f : ℚ → ℚ → ℚ) (l : List ℚ) :
    List.zipWith f l l = l.map (fun x => f x x) := by
  induction l with
  | nil => rfl
  | cons x xs ih => simp [ih]

theorem rollingMaxFrom_of_chain (x : ℚ) (xs : List ℚ)
    (h : List.Chain' (· ≤ ·) (x :: xs)) : rollingMaxFrom x xs = xs := by
  induction xs generalizing x with
  | nil => rfl
  | cons y ys ih =>
    rcases List.chain'_cons.mp h with ⟨hxy, htail⟩
    rw [rollingMaxFrom, max_eq_right hxy, ih y htail]

theorem drawdowns_cons (v : ℚ) (vs : List ℚ) :
    drawdowns (v :: vs) =
      0 :: List.zipWith (fun c m => (c - m) / m)
        (cumprodFrom (1 * (1 + v)) vs)
        (rollingMaxFrom (1 * (1 + v)) (cumprodFrom (1 * (1 + v)) vs)) := by
  rw [drawdowns, cumulative_returns, cumprodFrom, rolling_max]
  rw [List.zipWith_cons_cons, sub_self, zero_div]

theorem max_drawdown_nonpos (vs : List ℚ) (h : vs ≠ []) : max_drawdown vs ≤ 0 := by
  match vs, h with
  | v :: vs', _ =>
    rw [max_drawdown, drawdowns_cons]
    exact foldl_min_le_init _ 0

theorem max_drawdown_of_drawdowns_cons {vs ds : List ℚ} {d : ℚ}
    (h : drawdowns vs = d :: ds) : max_drawdown vs = ds.foldl min d := by
  rw [max_drawdown, h]

theorem cumprodFrom_replicate_zero (k : ℕ) :
    cumprodFrom 1 (List.replicate k 0 ++ [-(1/2)]) =
      List.replicate k 1 ++ [(1 : ℚ)/2] := by
  induction k with
  | zero =>
    simp only [List.replicate_zero, List.nil_append, cumprodFrom]
    norm_num
  | succ j ih =>
    simp only [List.replicate_succ, List.cons_append, cumprodFrom, List.append_eq]
    have h1 : (1 : ℚ) * (1 + 0) = 1 := by norm_num
    rw [h1, ih]

theorem rollingMaxFrom_replicate_one (j : ℕ) :
    rollingMaxFrom 1 (List.replicate j 1 ++ [(1 : ℚ)/2]) =
      List.replicate j 1 ++ [(1 : ℚ)] := by
  induction j with
  | zero =>
    simp only [List.replicate_zero, List.nil_append, rollingMaxFrom]
    norm_num
  | succ i ih =>
    simp only [List.replicate_succ, List.cons_append, rollingMaxFrom, List.append_eq]
    have h1 : max (1 : ℚ) 1 = 1 := max_self 1
    rw [h1, ih]

theorem zipWith_replicate_eq (f : ℚ → ℚ → ℚ) (j : ℕ) (a b : ℚ) :
    List.zipWith f (List.replicate j a) (List.replicate j b) =
      List.replicate j (f a b) := by
  induction j with
  | zero => rfl
  | succ i ih => simp [List.replicate, ih]

theorem foldl_min_replicate_self (j : ℕ) (a : ℚ) :
    (List.replicate j a).foldl min a = a := by
  induction j with
  | zero => rfl
  | succ i ih => simp [List.replicate, min_self, ih]

theorem max_drawdown_flat_then_drop (k : ℕ) (hk : 1 ≤ k) :
    max_drawdown (List.replicate k 0 ++ [-(1/2)]) = -(1/2) := by
  obtain ⟨j, rfl⟩ : ∃ j, k = j + 1 := ⟨k - 1, by omega⟩
  have hcum : cumulative_returns (List.replicate (j + 1) 0 ++ [-(1/2)]) =
      1 :: (List.replicate j 1 ++ [(1 : ℚ)/2]) := by
    rw [cumulative_returns, cumprodFrom_replicate_zero, List.replicate, List.cons_append]
  have hmax : rolling_max (1 :: (List.replicate j 1 ++ [(1 : ℚ)/2])) =
      1 :: (List.replicate j 1 ++ [(1 : ℚ)]) := by
    rw [rolling_max, rollingMaxFrom_replicate_one]
  have hdd : drawdowns (List.replicate (j + 1) 0 ++ [-(1/2)]) =
      0 :: (List.replicate j 0 ++ [-(1/2)]) := by
    rw [drawdowns, hcum, hmax, List.zipWith_cons_cons, sub_self, zero_div]
    congr 1
    rw [List.zipWith_append _ _ _ _ _ (by simp)]
    rw [zipWith_replicate_eq]
    norm_num
  rw [max_drawdown_of_drawdowns_cons hdd, List.foldl_append, foldl_min_replicate_self]
  show min 0 (-(1/2)) = -(1/2)
  norm_num

/-- Claim C2, amended: for every non-empty return series,
`calculate_performance_metrics` succeeds and its `max_drawdown` is the
minimum over `t` of `(c_t - m_t) / m_t` (cumulative product against its
running maximum); it is never positive; it is `0` whenever the
cumulative path never declines below its running peak (the path is
non-decreasing, e.g. strictly increasing); and it equals `-1/2` for a
single `-50%` return following at least one zero return — at least one
flat period is required, because with no prior period the running peak
is the dropped value itself (see the counterexample). -/
theorem c2_max_drawdown_spec (r : List (ℤ × ℚ)) (risk_free_rate : ℚ)
    (h : r ≠ []) :
    calculate_performance_metrics r risk_free_rate =
      .ok (metricsFor r risk_free_rate) ∧
    (metricsFor r risk_free_rate).max_drawdown ∈ drawdowns (r.map Prod.snd) ∧
    (∀ d ∈ drawdowns (r.map Prod.snd),
      (metricsFor r risk_free_rate).max_drawdown ≤ d) ∧
    (metricsFor r risk_free_rate).max_drawdown ≤ 0 ∧
    (List.Chain' (· ≤ ·) (cumulative_returns (r.map Prod.snd)) →
      (metricsFor r risk_free_rate).max_drawdown = 0) ∧
    (∀ k : ℕ, 1 ≤ k → r.map Prod.snd = List.replicate k 0 ++ [-(1/2)] →
      (metricsFor r risk_free_rate).max_drawdown = -(1/2)) := by
  obtain ⟨p, ps, rfl⟩ : ∃ p ps, r = p :: ps := by
    cases r with
    | nil => exact absurd rfl h
    | cons p ps => exact ⟨p, ps, rfl⟩
  have hok : calculate_performance_metrics (p :: ps) risk_free_rate =
      .ok (metricsFor (p :: ps) risk_free_rate) := rfl
  have hfield : (metricsFor (p :: ps) risk_free_rate).max_drawdown =
      max_drawdown ((p :: ps).map Prod.snd) := rfl
  have hddcons : drawdowns ((p :: ps).map Prod.snd) =
      0 :: List.zipWith (fun c m => (c - m) / m)
        (cumprodFrom (1 * (1 + p.2)) (ps.map Prod.snd))
        (rollingMaxFrom (1 * (1 + p.2))
          (cumprodFrom (1 * (1 + p.2)) (ps.map Prod.snd))) := by
    rw [List.map_cons, drawdowns_cons]
  have hmdef : max_drawdown ((p :: ps).map Prod.snd) =
      (List.zipWith (fun c m => (c - m) / m)
        (cumprodFrom (1 * (1 + p.2)) (ps.map Prod.snd))
        (rollingMaxFrom (1 * (1 + p.2))
          (cumprodFrom (1 * (1 + p.2)) (ps.map Prod.snd)))).foldl min 0 :=
    max_drawdown_of_drawdowns_cons hddcons
  refine ⟨hok, ?_, ?_, ?_, ?_, ?_⟩
  · rw [hfield, hmdef, hddcons]
    rcases foldl_min_mem _ 0 with h0 | hmem
    · rw [h0]; exact List.mem_cons_self _ _
    · exact List.mem_cons_of_mem _ hmem
  · intro d hd
    rw [hddcons] at hd
    rw [hfield, hmdef]
    rcases List.mem_cons.mp hd with rfl | hd
    · exact foldl_min_le_init _ 0
    · exact foldl_min_le_mem _ 0 d hd
  · rw [hfield, hmdef]
    exact foldl_min_le_init _ 0
  · intro hchain
    have hroll : rolling_max (cumulative_returns ((p :: ps).map Prod.snd)) =
        cumulative_returns ((p :: ps).map Prod.snd) := by
      have hcc : cumulative_returns ((p :: ps).map Prod.snd) =
          (1 * (1 + p.2)) :: cumprodFrom (1 * (1 + p.2)) (ps.map Prod.snd) := rfl
      rw [hcc] at hchain ⊢
      rw [rolling_max, rollingMaxFrom_of_chain _ _ hchain]
    have hzero : ∀ d ∈ drawdowns ((p :: ps).map Prod.snd), d = 0 := by
      intro d hd
      rw [drawdowns, hroll, zipWith_self_eq_map] at hd
      rcases List.mem_map.mp hd with ⟨c, _, rfl⟩
      rw [sub_self, zero_div]
    have hin : max_drawdown ((p :: ps).map Prod.snd) ∈
        drawdowns ((p :: ps).map Prod.snd) := by
      rw [hmdef, hddcons]
      rcases foldl_min_mem _ 0 with h0 | hmem
      · rw [h0]; exact List.mem_cons_self _ _
      · exact List.mem_cons_of_mem _ hmem
    rw [hfield]
    exact hzero _ hin
  · intro k hk hmap
    rw [hfield, hmap]
    exact max_drawdown_flat_then_drop k hk

/-- Witness for C2 at the concrete series `[0, -1/2]` (one flat period
then a 50% drop): the reported maximum drawdown is `-1/2`. -/
theorem c2_max_drawdown_spec_witness :
    (metricsFor [((0 : ℤ), (0 : ℚ)), (1, -(1/2))] 0).max_drawdown = -(1/2) :=
  (c2_max_drawdown_spec [((0 : ℤ), (0 : ℚ)), (1, -(1/2))] 0 (by simp)).2.2.2.2.2
    1 (le_refl 1) (by norm_num)

/-- Counterexample to C2 as stated: for a single `-50%` return with no
preceding flat period (the "any number of zero returns" includes zero
of them), the cumulative path starts at its own running peak `1/2`, so
the code reports `max_drawdown = 0`, not `-0.5`. -/
theorem c2_counterexample_lone_drop :
    (metricsFor [((0 : ℤ), -(1 : ℚ)/2)] 0).max_drawdown = 0 ∧
    (0 : ℚ) ≠ -(1/2) := by
  constructor
  · show max_drawdown [-(1 : ℚ)/2] = 0
    rw [@max_drawdown_of_drawdowns_cons [-(1 : ℚ)/2] [] 0 (by
      rw [drawdowns, cumulative_returns, cumprodFrom, cumprodFrom, rolling_max,
        rollingMaxFrom, List.zipWith_cons_cons, sub_self, zero_div]
      rfl)]
    rfl
  · norm_num

theorem seriesMean_const (vals : List ℚ) (c : ℚ) (hne : vals ≠ [])
    (hc : ∀ x ∈ vals, x = c) : seriesMean vals = c := by
  have hsum : vals.sum = vals.length • c := List.sum_eq_card_nsmul vals c hc
  rw [seriesMean, hsum, nsmul_eq_mul]
  have hlen : (vals.length : ℚ) ≠ 0 := by
    have := List.length_pos.mpr hne
    exact_mod_cast Nat.pos_iff_ne_zero.mp this
  rw [mul_comm, mul_div_assoc, div_self hlen, mul_one]

theorem sample_variance_const (vals : List ℚ) (c : ℚ) (hne : vals ≠ [])
    (hc : ∀ x ∈ vals, x = c) : sample_variance vals = 0 := by
  rw [sample_variance]
  have hz : (vals.map (fun x => (x - seriesMean vals) ^ 2)).sum = 0 := by
    apply List.sum_eq_zero
    intro y hy
    rcases List.mem_map.mp hy with ⟨x, hx, rfl⟩
    rw [hc x hx, seriesMean_const vals c hne hc, sub_self]
    ring
  rw [hz, zero_div]

theorem volatility_const_zero (vals : List ℚ) (c : ℚ) (hne : vals ≠ [])
    (hc : ∀ x ∈ vals, x = c) : volatility vals = 0 := by
  rw [volatility]
  have hv : sample_variance vals = 0 := sample_variance_const vals c hne hc
  rw [hv]
  push_cast
  rw [Real.sqrt_zero, zero_mul]

theorem seqCells_isSome_iff (cs : List (Option ℚ)) :
    (seqCells cs).isSome = true ↔ ∀ v ∈ cs, v.isSome = true := by
  induction cs with
  | nil => simp [seqCells]
  | cons v vs ih =>
    cases v with
    | none => simp [seqCells]
    | some q => simpa [seqCells] using ih

theorem ffillRow_of_allSome (prevf cur : List (Option ℚ))
    (hlen : prevf.length = cur.length)
    (hall : ∀ v ∈ cur, v.isSome = true) :
    ffillRow prevf cur = cur := by
  induction prevf generalizing cur with
  | nil =>
    cases cur with
    | nil => rfl
    | cons c cs => exact absurd hlen (by simp)
  | cons p ps ih =>
    cases cur with
    | nil => exact absurd hlen (by simp)
    | cons c cs =>
      have hc := hall c (List.mem_cons_self _ _)
      cases c with
      | none => exact absurd hc (by simp)
      | some b =>
        have htail := ih cs (by simpa using hlen)
          (fun v hv => hall v (List.mem_cons_of_mem _ hv))
        show some b :: ffillRow ps cs = some b :: cs
        rw [htail]

theorem pctRow_ffill_all_isSome_iff (prevf cur : List (Option ℚ))
    (hlen : prevf.length = cur.length) :
    (∀ v ∈ pctRow prevf (ffillRow prevf cur), v.isSome = true) ↔
      (∀ v ∈ prevf, v.isSome = true) := by
  induction prevf generalizing cur with
  | nil =>
    cases cur with
    | nil => simp [pctRow, ffillRow]
    | cons c cs => exact absurd hlen (by simp)
  | cons p ps ih =>
    cases cur with
    | nil => exact absurd hlen (by simp)
    | cons c cs =>
      have hlen' : ps.length = cs.length := by simpa using hlen
      constructor
      · intro hall
        have hhead := hall _ (List.mem_cons_self _ _)
        have htail := (ih cs hlen').mp
          (fun v hv => hall v (List.mem_cons_of_mem _ hv))
        intro v hv
        rcases List.mem_cons.mp hv with rfl | hv
        · cases v with
          | none =>
            cases c with
            | none => exact absurd hhead (by simp [pctRow, ffillRow])
            | some b => exact absurd hhead (by simp [pctRow, ffillRow])
          | some a => rfl
        · exact htail v hv
      · intro hp
        have hp' := hp p (List.mem_cons_self _ _)
        have htail := (ih cs hlen').mpr
          (fun v hv => hp v (List.mem_cons_of_mem _ hv))
        intro v hv
        cases p with
        | none => exact absurd hp' (by simp)
        | some a =>
          cases c with
          | none =>
            rcases List.mem_cons.mp hv with rfl | hv
            · rfl
            · exact htail v hv
          | some b =>
            rcases List.mem_cons.mp hv with rfl | hv
            · rfl
            · exact htail v hv

theorem colVal_isSome_of_all (cols : List String) (cs : List (Option ℚ))
    (name : String) (hmemb : name ∈ cols) (hlen : cs.length = cols.length)
    (hall : ∀ v ∈ cs, v.isSome = true) :
    (colVal cols cs name).isSome = true := by
  induction cols generalizing cs with
  | nil => exact absurd hmemb (List.not_mem_nil name)
  | cons cc cols' ih =>
    cases cs with
    | nil => exact absurd hlen (by simp)
    | cons v vs =>
      by_cases hcc : cc = name
      · rw [colVal, if_pos hcc]
        exact hall _ (List.mem_cons_self _ _)
      · rw [colVal, if_neg hcc]
        have hmemb' : name ∈ cols' := by
          rcases List.mem_cons.mp hmemb with h | h
          · exact absurd h.symm hcc
          · exact h
        exact ih vs hmemb' (by simpa using hlen)
          (fun w hw => hall _ (List.mem_cons_of_mem _ hw))

theorem colVal_get_of_nodup (cols : List String) (cs : List (Option ℚ))
    (hnd : cols.Nodup) (hlen : cs.length = cols.length) :
    ∀ (i : ℕ) (hi : i < cols.length) (hi' : i < cs.length),
      colVal cols cs (cols.get ⟨i, hi⟩) = cs.get ⟨i, hi'⟩ := by
  induction cols generalizing cs with
  | nil => intro i hi; exact absurd hi (by simp)
  | cons cc cols' ih =>
    cases cs with
    | nil => intro i hi hi'; exact absurd hi' (by simp)
    | cons v vs =>
      intro i hi hi'
      cases i with
      | zero => rw [colVal]; simp
      | succ j =>
        have hj : j < cols'.length := by simpa using hi
        have hj' : j < vs.length := by simpa using hi'
        have hne : cc ≠ cols'.get ⟨j, hj⟩ := by
          intro hcontra
          exact (List.nodup_cons.mp hnd).1 (hcontra ▸ List.get_mem cols' j hj)
        show colVal (cc :: cols') (v :: vs) (cols'.get ⟨j, hj⟩) = vs.get ⟨j, hj'⟩
        rw [colVal, if_neg hne]
        exact ih vs (List.nodup_cons.mp hnd).2 (by simpa using hlen) j hj hj'

theorem all_isSome_of_symbolsDefined (cols symbols : List String)
    (cs : List (Option ℚ)) (hnd : cols.Nodup) (hlen : cs.length = cols.length)
    (honto : ∀ c ∈ cols, ∃ s ∈ symbols, c = s ++ "_close")
    (hdef : symbolsDefinedB cols symbols cs = true) :
    ∀ v ∈ cs, v.isSome = true := by
  intro v hv
  rcases List.mem_iff_get.mp hv with ⟨⟨i, hi⟩, rfl⟩
  have hic : i < cols.length := hlen ▸ hi
  obtain ⟨s, hs, hceq⟩ := honto (cols.get ⟨i, hic⟩) (List.get_mem cols i hic)
  have hdefs := (List.all_eq_true.mp hdef) s hs
  rw [← hceq] at hdefs
  rw [colVal_get_of_nodup cols cs hnd hlen i hic hi] at hdefs
  exact hdefs

theorem symbolsDefined_of_all (cols symbols : List String)
    (cs : List (Option ℚ)) (hlen : cs.length = cols.length)
    (hmem : ∀ s ∈ symbols, (s ++ "_close") ∈ cols)
    (hall : ∀ v ∈ cs, v.isSome = true) :
    symbolsDefinedB cols symbols cs = true := by
  rw [symbolsDefinedB, List.all_eq_true]
  intro s hs
  exact colVal_isSome_of_all cols cs (s ++ "_close") (hmem s hs) hlen hall

theorem insertRow_perm (r : ℤ × List (Option ℚ))
    (l : List (ℤ × List (Option ℚ))) : (insertRow r l).Perm (r :: l) := by
  induction l with
  | nil => exact List.Perm.refl _
  | cons x xs ih =>
    rw [insertRow]
    by_cases hlt : r.1 < x.1
    · rw [if_pos hlt]
    · rw [if_neg hlt]
      exact (List.Perm.cons x ih).trans (List.Perm.swap r x xs)

theorem sortByTime_perm (l : List (ℤ × List (Option ℚ))) :
    (sortByTime l).Perm l := by
  induction l with
  | nil => exact List.Perm.refl _
  | cons r rs ih =>
    rw [sortByTime]
    exact (insertRow_perm r (sortByTime rs)).trans (List.Perm.cons r ih)

theorem allSome_iff_symbolsDefined (cols symbols : List String)
    (cs : List (Option ℚ)) (hnd : cols.Nodup) (hlen : cs.length = cols.length)
    (honto : ∀ c ∈ cols, ∃ s ∈ symbols, c = s ++ "_close")
    (hmem : ∀ s ∈ symbols, (s ++ "_close") ∈ cols) :
    (∀ v ∈ cs, v.isSome = true) ↔ symbolsDefinedB cols symbols cs = true :=
  ⟨symbolsDefined_of_all cols symbols cs hlen hmem,
   all_isSome_of_symbolsDefined cols symbols cs hnd hlen honto⟩

theorem dropna_pctChangeFrom_times (cols symbols : List String)
    (hnd : cols.Nodup)
    (honto : ∀ c ∈ cols, ∃ s ∈ symbols, c = s ++ "_close")
    (hmem : ∀ s ∈ symbols, (s ++ "_close") ∈ cols) :
    ∀ (rows : List (ℤ × List (Option ℚ))) (prevf : List (Option ℚ)),
      (∀ r ∈ rows, r.2.length = cols.length) →
      prevf.length = cols.length →
      (dropna (pctChangeFrom prevf rows)).map Prod.fst =
        keptTimesFrom cols symbols prevf rows := by
  intro rows
  induction rows with
  | nil => intro prevf _ _; rfl
  | cons r rest ih =>
    intro prevf hwf hprev
    have hrlen : r.2.length = cols.length := hwf r (List.mem_cons_self _ _)
    have hzip : prevf.length = r.2.length := by rw [hprev, hrlen]
    have hfflen : (ffillRow prevf r.2).length = cols.length := by
      rw [ffillRow, List.length_zipWith, hprev, hrlen, min_self]
    have hiff : (seqCells (pctRow prevf (ffillRow prevf r.2))).isSome = true ↔
        symbolsDefinedB cols symbols prevf = true := by
      rw [seqCells_isSome_iff, pctRow_ffill_all_isSome_iff prevf r.2 hzip]
      exact allSome_iff_symbolsDefined cols symbols prevf hnd hprev honto hmem
    have htail := ih (ffillRow prevf r.2)
      (fun x hx => hwf x (List.mem_cons_of_mem _ hx)) hfflen
    rw [pctChangeFrom, dropna, List.filterMap_cons, keptTimesFrom]
    by_cases hcond : symbolsDefinedB cols symbols prevf = true
    · obtain ⟨vs, hvs⟩ := Option.isSome_iff_exists.mp (hiff.mpr hcond)
      rw [hvs]
      show ((r.1, vs) :: dropna (pctChangeFrom (ffillRow prevf r.2) rest)).map
        Prod.fst = _
      rw [if_pos hcond, List.map_cons, htail]
    · have hnone : seqCells (pctRow prevf (ffillRow prevf r.2)) = none := by
        cases hsq : seqCells (pctRow prevf (ffillRow prevf r.2)) with
        | none => rfl
        | some vs => exact absurd (hiff.mp (by rw [hsq]; rfl)) hcond
      rw [hnone]
      show (dropna (pctChangeFrom (ffillRow prevf r.2) rest)).map Prod.fst = _
      rw [if_neg hcond, htail]

theorem dropna_pctChangeFrom_full_length (n : ℕ) :
    ∀ (rows : List (ℤ × List (Option ℚ))) (prevf : List (Option ℚ)),
      (∀ r ∈ rows, r.2.length = n) → prevf.length = n →
      (∀ r ∈ rows, ∀ v ∈ r.2, v.isSome = true) →
      (∀ v ∈ prevf, v.isSome = true) →
      (dropna (pctChangeFrom prevf rows)).length = rows.length := by
  intro rows
  induction rows with
  | nil => intro prevf _ _ _ _; rfl
  | cons r rest ih =>
    intro prevf hwf hprev hfull hprevfull
    have hrlen : r.2.length = n := hwf r (List.mem_cons_self _ _)
    have hzip : prevf.length = r.2.length := by rw [hprev, hrlen]
    have hff : ffillRow prevf r.2 = r.2 :=
      ffillRow_of_allSome prevf r.2 hzip (hfull r (List.mem_cons_self _ _))
    have hsome : (seqCells (pctRow prevf (ffillRow prevf r.2))).isSome = true := by
      rw [seqCells_isSome_iff]
      exact (pctRow_ffill_all_isSome_iff prevf r.2 hzip).mpr hprevfull
    obtain ⟨vs, hvs⟩ := Option.isSome_iff_exists.mp hsome
    rw [pctChangeFrom, dropna, List.filterMap_cons, hvs]
    show ((r.1, vs) :: dropna (pctChangeFrom (ffillRow prevf r.2) rest)).length =
      rest.length + 1
    rw [List.length_cons, hff]
    rw [ih r.2 (fun x hx => hwf x (List.mem_cons_of_mem _ hx)) hrlen
      (fun x hx => hfull x (List.mem_cons_of_mem _ hx))
      (hfull r (List.mem_cons_self _ _))]

/-- Claim C5: for every non-empty return series the Sharpe ratio is the
excess annualized return divided by the volatility when the volatility
is positive, and `0` otherwise; a constant return series has zero
sample variance, hence zero volatility, the division branch is not
taken, and the result is `0` rather than an error or infinity. -/
theorem c5_sharpe_zero_volatility_guard (r : List (ℤ × ℚ))
    (risk_free_rate : ℚ) (h : r ≠ []) :
    calculate_performance_metrics r risk_free_rate =
      .ok (metricsFor r risk_free_rate) ∧
    Metrics.sharpe_ratio (metricsFor r risk_free_rate) =
      (if 0 < (metricsFor r risk_free_rate).volatility then
        (((metricsFor r risk_free_rate).annualized_return : ℝ) - (risk_free_rate : ℝ)) /
          (metricsFor r risk_free_rate).volatility
       else 0) ∧
    (∀ c : ℚ, (∀ x ∈ r, x.2 = c) →
      Metrics.sharpe_ratio (metricsFor r risk_free_rate) = 0) := by
  obtain ⟨p, ps, rfl⟩ : ∃ p ps, r = p :: ps := by
    cases r with
    | nil => exact absurd rfl h
    | cons p ps => exact ⟨p, ps, rfl⟩
  refine ⟨rfl, rfl, ?_⟩
  intro c hc
  have hvals : ∀ x ∈ (p :: ps).map Prod.snd, x = c := by
    intro x hx
    rcases List.mem_map.mp hx with ⟨q, hq, rfl⟩
    exact hc q hq
  have hne : (p :: ps).map Prod.snd ≠ [] := by simp
  have hvol : volatility ((p :: ps).map Prod.snd) = 0 :=
    volatility_const_zero _ c hne hvals
  show sharpe_ratio ((p :: ps).map Prod.snd) risk_free_rate = 0
  rw [sharpe_ratio, hvol]
  rw [if_neg (lt_irrefl 0)]

/-- Witness for C5 at the constant series `[1/100, 1/100]`: the Sharpe
ratio is `0`. -/
theorem c5_sharpe_zero_volatility_guard_witness :
    Metrics.sharpe_ratio (metricsFor [((0 : ℤ), (1 : ℚ)/100), (1, 1/100)] 0) = 0 :=
  (c5_sharpe_zero_volatility_guard [((0 : ℤ), (1 : ℚ)/100), (1, 1/100)] 0
      (by simp)).2.2 (1/100) (by
    intro x hx
    rcases List.mem_cons.mp hx with rfl | hx
    · rfl
    · rcases List.mem_cons.mp hx with rfl | hx
      · rfl
      · exact absurd hx (List.not_mem_nil x))

theorem dropna_cons_none {t : ℤ} {cs : List (Option ℚ)}
    {rows : List (ℤ × List (Option ℚ))} (h : seqCells cs = none) :
    dropna ((t, cs) :: rows) = dropna rows := by
  simp [dropna, List.filterMap_cons, h]

theorem missing_filter_nil (f : PriceFrame) (symbols : List String)
    (hmem : ∀ s ∈ symbols, (s ++ "_close") ∈ f.cols) :
    (symbols.map (fun s => s ++ "_close")).filter
      (fun c => !(f.cols.contains c)) = [] := by
  rw [List.filter_eq_nil_iff]
  intro c hc
  rcases List.mem_map.mp hc with ⟨s, hs, rfl⟩
  simpa using hmem s hs

theorem calculate_portfolio_returns_ok (f : PriceFrame)
    (symbols : List String) (weights : List ℚ)
    (hmem : ∀ s ∈ symbols, (s ++ "_close") ∈ f.cols) :
    calculate_portfolio_returns f symbols weights =
      .ok (portfolio_returns_list f symbols weights) := by
  show (if (symbols.map (fun s => s ++ "_close")).filter
      (fun c => !(f.cols.contains c)) = [] then
      (Except.ok (portfolio_returns_list f symbols weights) :
        Except PipelineError (List (ℤ × ℚ)))
    else .error (.analysisError "Missing price columns")) = _
  rw [if_pos (missing_filter_nil f symbols hmem)]

/-- Claim C1, amended: under the `fill_method='pad'` default of the
pandas 2.x runtime, `calculate_portfolio_returns` still drops whole
rows (row-wise, via `dropna`), but the dropped rows are the first
(time-sorted) row plus exactly those rows in which some symbol has no
price observation at any earlier timestamp.  A later row in which a
symbol's price is missing but was observed earlier is NOT dropped: the
gap is forward-filled and that symbol contributes a `0` return there
(and a gap-spanning return at its next observation) — see the
counterexample.  For a price table whose columns are exactly the
`{symbol}_close` columns of the (non-empty, upstream-validated) symbol
list, the call succeeds and the returned series is indexed exactly by
the timestamps at which every symbol has a forward-filled price at the
preceding row (`keptTimes`). -/
theorem c1_pad_drop_policy (f : PriceFrame) (symbols : List String)
    (weights : List ℚ)
    (hwf : ∀ r ∈ f.rows, r.2.length = f.cols.length)
    (hnd : f.cols.Nodup)
    (honto : ∀ c ∈ f.cols, ∃ s ∈ symbols, c = s ++ "_close")
    (hmem : ∀ s ∈ symbols, (s ++ "_close") ∈ f.cols)
    (hne : symbols ≠ []) :
    calculate_portfolio_returns f symbols weights =
      .ok (portfolio_returns_list f symbols weights) ∧
    (portfolio_returns_list f symbols weights).map Prod.fst =
      keptTimes f.cols symbols (sortByTime f.rows) := by
  refine ⟨calculate_portfolio_returns_ok f symbols weights hmem, ?_⟩
  have hmapfst : (portfolio_returns_list f symbols weights).map Prod.fst =
      (dropna (pct_change (sortByTime f.rows))).map Prod.fst := by
    rw [portfolio_returns_list, List.map_map]
    rfl
  have hswf : ∀ r ∈ sortByTime f.rows, r.2.length = f.cols.length :=
    fun r hr => hwf r ((sortByTime_perm f.rows).mem_iff.mp hr)
  obtain ⟨s0, hs0⟩ : ∃ s0, s0 ∈ symbols := by
    cases symbols with
    | nil => exact absurd rfl hne
    | cons a as => exact ⟨a, List.mem_cons_self _ _⟩
  have hcolne : f.cols ≠ [] := by
    intro h
    have := hmem s0 hs0
    rw [h] at this
    exact List.not_mem_nil _ this
  rw [hmapfst]
  cases hs : sortByTime f.rows with
  | nil => rfl
  | cons r0 rest =>
    have hr0 : r0 ∈ sortByTime f.rows := by
      rw [hs]
      exact List.mem_cons_self _ _
    have hr0len : r0.2.length = f.cols.length := hswf r0 hr0
    have hr0ne : r0.2 ≠ [] := by
      intro h
      rw [h] at hr0len
      exact hcolne (List.length_eq_zero.mp hr0len.symm)
    have hhead : seqCells (r0.2.map (fun _ => none)) = none := by
      obtain ⟨a, as, ha⟩ := List.exists_cons_of_ne_nil hr0ne
      rw [ha, List.map_cons]
      rfl
    rw [pct_change, dropna_cons_none hhead, keptTimes]
    exact dropna_pctChangeFrom_times f.cols symbols hnd honto hmem rest r0.2
      (fun x hx => hswf x (by rw [hs]; exact List.mem_cons_of_mem _ hx)) hr0len

/-- Witness for C1 at a two-row, one-symbol table with no gaps: the
only kept timestamp is the second row's. -/
theorem c1_pad_drop_policy_witness :
    calculate_portfolio_returns ⟨["AAA_close"], [(0, [some 1]), (1, [some 2])]⟩
      ["AAA"] [1] =
      .ok (portfolio_returns_list ⟨["AAA_close"], [(0, [some 1]), (1, [some 2])]⟩
        ["AAA"] [1]) ∧
    (portfolio_returns_list ⟨["AAA_close"], [(0, [some 1]), (1, [some 2])]⟩
      ["AAA"] [1]).map Prod.fst =
      keptTimes ["AAA_close"] ["AAA"]
        (sortByTime [(0, [some 1]), (1, [some 2])]) :=
  c1_pad_drop_policy ⟨["AAA_close"], [(0, [some 1]), (1, [some 2])]⟩
    ["AAA"] [1]
    (by intro r hr; rcases List.mem_cons.mp hr with rfl | hr
        · rfl
        · rcases List.mem_cons.mp hr with rfl | hr
          · rfl
          · exact absurd hr (List.not_mem_nil r))
    (by simp)
    (by intro c hc
        rcases List.mem_cons.mp hc with rfl | hc
        · exact ⟨"AAA", List.mem_cons_self _ _, rfl⟩
        · exact absurd hc (List.not_mem_nil c))
    (by intro s hs
        rcases List.mem_cons.mp hs with rfl | hs
        · exact List.mem_cons_self _ _
        · exact absurd hs (List.not_mem_nil s))
    (by simp)

/-- Counterexample to C1 as stated: symbol `BBB` has no price at
timestamp 1 (an interior outer-join gap), yet under the pandas
`fill_method='pad'` default that row is retained, not dropped — the
gap is forward-filled from `40`, `BBB` contributes a `0` return, and
the portfolio return at timestamp 1 is `(1/10)/2 + 0/2 = 1/20`; the
next row's `BBB` return `44/40 - 1` spans the gap.  Timestamp 1
appearing in the returned index refutes the claim that every later row
in which any symbol's price is missing is dropped in its entirety. -/
theorem c1_counterexample_gap_row_retained :
    calculate_portfolio_returns
      ⟨["AAA_close", "BBB_close"],
        [(0, [some 10, some 40]), (1, [some 11, none]), (2, [some 12, some 44])]⟩
      ["AAA", "BBB"] [1/2, 1/2] =
      .ok [((1 : ℤ), (1 : ℚ)/20), (2, 21/220)] ∧
    (1 : ℤ) ∈ ([((1 : ℤ), (1 : ℚ)/20), (2, 21/220)].map Prod.fst) := by
  constructor
  · have e1 : "AAA" ++ "_close" = "AAA_close" := rfl
    have e2 : "BBB" ++ "_close" = "BBB_close" := rfl
    have e3 : ("AAA_close" = "BBB_close") = False := by simp
    norm_num [calculate_portfolio_returns, portfolio_returns_list, sortByTime,
      insertRow, pct_change, pctChangeFrom, pctRow, ffillRow, dropna, seqCells,
      portfolioRow, colValQ, List.filterMap_cons, e1, e2, e3]
  · simp

/-- Claim C7, amended: for a gap-free price table (every cell defined)
with `M` rows over a non-empty symbol list whose close columns are all
present, `calculate_portfolio_returns` succeeds with exactly `M - 1`
return rows; and provided `M ≥ 2` (so that at least one return row
remains), `calculate_performance_metrics` on that result succeeds and
reports `total_periods = M - 1`.  The `M ≥ 2` proviso is forced: for a
one-row table the return series is empty and the metrics call raises
`AnalysisError` instead of reporting `total_periods = 0` (see the
counterexample). -/
theorem c7_gapfree_round_trip (f : PriceFrame) (symbols : List String)
    (weights : List ℚ) (risk_free_rate : ℚ)
    (hwf : ∀ r ∈ f.rows, r.2.length = f.cols.length)
    (hfull : ∀ r ∈ f.rows, ∀ v ∈ r.2, v.isSome = true)
    (hmem : ∀ s ∈ symbols, (s ++ "_close") ∈ f.cols)
    (hne : symbols ≠ [])
    (hM : 2 ≤ f.rows.length) :
    calculate_portfolio_returns f symbols weights =
      .ok (portfolio_returns_list f symbols weights) ∧
    (portfolio_returns_list f symbols weights).length = f.rows.length - 1 ∧
    calculate_performance_metrics (portfolio_returns_list f symbols weights)
      risk_free_rate =
      .ok (metricsFor (portfolio_returns_list f symbols weights)
        risk_free_rate) ∧
    (metricsFor (portfolio_returns_list f symbols weights)
      risk_free_rate).total_periods = f.rows.length - 1 := by
  have hsortlen : (sortByTime f.rows).length = f.rows.length :=
    (sortByTime_perm f.rows).length_eq
  have hswf : ∀ r ∈ sortByTime f.rows, r.2.length = f.cols.length :=
    fun r hr => hwf r ((sortByTime_perm f.rows).mem_iff.mp hr)
  have hsfull : ∀ r ∈ sortByTime f.rows, ∀ v ∈ r.2, v.isSome = true :=
    fun r hr => hfull r ((sortByTime_perm f.rows).mem_iff.mp hr)
  obtain ⟨s0, hs0⟩ : ∃ s0, s0 ∈ symbols := by
    cases symbols with
    | nil => exact absurd rfl hne
    | cons a as => exact ⟨a, List.mem_cons_self _ _⟩
  have hcolne : f.cols ≠ [] := by
    intro h
    have := hmem s0 hs0
    rw [h] at this
    exact List.not_mem_nil _ this
  have hlen : (portfolio_returns_list f symbols weights).length =
      f.rows.length - 1 := by
    rw [portfolio_returns_list, List.length_map]
    cases hs : sortByTime f.rows with
    | nil =>
      rw [hs] at hsortlen
      simp at hsortlen
      omega
    | cons r0 rest =>
      have hr0 : r0 ∈ sortByTime f.rows := by
        rw [hs]
        exact List.mem_cons_self _ _
      have hr0len : r0.2.length = f.cols.length := hswf r0 hr0
      have hr0ne : r0.2 ≠ [] := by
        intro h
        rw [h] at hr0len
        exact hcolne (List.length_eq_zero.mp hr0len.symm)
      have hhead : seqCells (r0.2.map (fun _ => none)) = none := by
        obtain ⟨a, as, ha⟩ := List.exists_cons_of_ne_nil hr0ne
        rw [ha, List.map_cons]
        rfl
      rw [pct_change, dropna_cons_none hhead]
      rw [dropna_pctChangeFrom_full_length f.cols.length rest r0.2
        (fun x hx => hswf x (by rw [hs]; exact List.mem_cons_of_mem _ hx))
        hr0len
        (fun x hx => hsfull x (by rw [hs]; exact List.mem_cons_of_mem _ hx))
        (hsfull r0 hr0)]
      rw [hs] at hsortlen
      rw [List.length_cons] at hsortlen
      omega
  have hplne : portfolio_returns_list f symbols weights ≠ [] := by
    intro h
    rw [h] at hlen
    simp at hlen
    omega
  refine ⟨calculate_portfolio_returns_ok f symbols weights hmem, hlen, ?_, ?_⟩
  · cases hpl : portfolio_returns_list f symbols weights with
    | nil => exact absurd hpl hplne
    | cons a as => rfl
  · show (portfolio_returns_list f symbols weights).length = f.rows.length - 1
    exact hlen

/-- Witness for C7 at a three-row gap-free table: two return rows and
`total_periods = 2`. -/
theorem c7_gapfree_round_trip_witness :
    calculate_portfolio_returns
      ⟨["AAA_close"], [(0, [some 1]), (1, [some 2]), (2, [some 4])]⟩
      ["AAA"] [1] =
      .ok (portfolio_returns_list
        ⟨["AAA_close"], [(0, [some 1]), (1, [some 2]), (2, [some 4])]⟩
        ["AAA"] [1]) ∧
    (portfolio_returns_list
      ⟨["AAA_close"], [(0, [some 1]), (1, [some 2]), (2, [some 4])]⟩
      ["AAA"] [1]).length = 3 - 1 ∧
    calculate_performance_metrics
      (portfolio_returns_list
        ⟨["AAA_close"], [(0, [some 1]), (1, [some 2]), (2, [some 4])]⟩
        ["AAA"] [1]) 0 =
      .ok (metricsFor (portfolio_returns_list
        ⟨["AAA_close"], [(0, [some 1]), (1, [some 2]), (2, [some 4])]⟩
        ["AAA"] [1]) 0) ∧
    (metricsFor (portfolio_returns_list
      ⟨["AAA_close"], [(0, [some 1]), (1, [some 2]), (2, [some 4])]⟩
      ["AAA"] [1]) 0).total_periods = 3 - 1 :=
  c7_gapfree_round_trip
    ⟨["AAA_close"], [(0, [some 1]), (1, [some 2]), (2, [some 4])]⟩
    ["AAA"] [1] 0
    (by intro r hr
        rcases List.mem_cons.mp hr with rfl | hr
        · rfl
        · rcases List.mem_cons.mp hr with rfl | hr
          · rfl
          · rcases List.mem_cons.mp hr with rfl | hr
            · rfl
            · exact absurd hr (List.not_mem_nil r))
    (by intro r hr
        rcases List.mem_cons.mp hr with rfl | hr
        · intro v hv
          rcases List.mem_cons.mp hv with rfl | hv
          · rfl
          · exact absurd hv (List.not_mem_nil v)
        · rcases List.mem_cons.mp hr with rfl | hr
          · intro v hv
            rcases List.mem_cons.mp hv with rfl | hv
            · rfl
            · exact absurd hv (List.not_mem_nil v)
          · rcases List.mem_cons.mp hr with rfl | hr
            · intro v hv
              rcases List.mem_cons.mp hv with rfl | hv
              · rfl
              · exact absurd hv (List.not_mem_nil v)
            · exact absurd hr (List.not_mem_nil r))
    (by intro s hs
        rcases List.mem_cons.mp hs with rfl | hs
        · exact List.mem_cons_self _ _
        · exact absurd hs (List.not_mem_nil s))
    (by simp)
    (by simp)

/-- Counterexample to C7 as stated: a gap-free one-row table (`M = 1`)
yields an empty return series, on which `calculate_performance_metrics`
raises `AnalysisError` instead of reporting `total_periods = M - 1`. -/
theorem c7_counterexample_single_row :
    calculate_portfolio_returns ⟨["AAA_close"], [((0 : ℤ), [some 1])]⟩
      ["AAA"] [1] = .ok [] ∧
    calculate_performance_metrics [] 0 =
      .error (.analysisError "No returns data available for metrics calculation") := by
  constructor
  · rfl
  · rfl
